import Mathlib

/-!
Shallow embedding of the KoCharElectra tokenizer
(src/pretrain/model/tokenization.py) and verification of the frozen claims
about it.

Strings are modelled as lists of characters (`Str`).  Python dictionaries
(`collections.OrderedDict`) are modelled as association lists with
overwrite-in-place insertion (`dput`), which matches the ordered,
last-writer-wins semantics of Python dict assignment.  File contents are
modelled as the raw list of characters of the file; `readlines` reproduces
Python `file.readlines()` (each line keeps its trailing newline, a final
fragment without a newline is its own line).  Python `None` propagating
through id lookups is modelled with `Option Nat` (`PyId`).
-/

namespace KoElectra

/-- A Python string: a list of characters. -/
abbrev Str := List Char

/-- A Python token id value: an int, or None when a lookup produced None. -/
abbrev PyId := Option Nat

/-- Model of the whitespace class used by Python str.split and str.strip. -/
def isWs (c : Char) : Bool := c.isWhitespace

/-- Python dict assignment d[k] = v on an ordered association list:
overwrite the value in place if the key is present, else append. -/
def dput {α β : Type} [DecidableEq α] (k : α) (v : β) :
    List (α × β) → List (α × β)
  | [] => [(k, v)]
  | q :: qs => if q.1 = k then (k, v) :: qs else q :: dput k v qs

/-- Python dict lookup d.get(k): the value stored at key k, if any. -/
def dget {α β : Type} [DecidableEq α] (k : α) :
    List (α × β) → Option β
  | [] => none
  | q :: qs => if q.1 = k then some q.2 else dget k qs

/-- Build a Python dict from a list of (key, value) entries by repeated
assignment, as collections.OrderedDict(entries) does. -/
def dictOf {α β : Type} [DecidableEq α] (es : List (α × β)) : List (α × β) :=
  es.foldl (fun d q => dput q.1 q.2 d) []

/-- The value the last entry of es with key k would store, if any
(the value a dict built from es holds at k). -/
def lastEntryVal {α β : Type} [DecidableEq α] (k : α) :
    List (α × β) → Option β
  | [] => none
  | q :: qs =>
    match lastEntryVal k qs with
    | some v => some v
    | none => if q.1 = k then some q.2 else none

/-- Python file.readlines() on the raw character contents of a file:
split after every newline character; a trailing fragment with no final
newline is still a line. -/
def readlines : Str → List Str
  | [] => []
  | c :: rest =>
    if c = '\n' then [c] :: readlines rest
    else
      match readlines rest with
      | [] => [[c]]
      | l :: ls => (c :: l) :: ls

/-- Python token.rstrip of newline characters: drop trailing newlines. -/
def rstripNL (s : Str) : Str :=
  (s.reverse.dropWhile (fun c => c = '\n')).reverse

/-- The (token, index) entries produced by
"for index, token in enumerate(tokens): token = token.rstrip; ..." starting
at index i: each line contributes its rstripped text keyed to its line
number. -/
def canonFrom (i : Nat) : List Str → List (Str × Nat)
  | [] => []
  | l :: ls => (rstripNL l, i) :: canonFrom (i + 1) ls

/-- load_vocab (tokenization.py, lines 36 to 44): read the lines of the
file, rstrip the newline from each and assign vocab[token] = index in
enumeration order. -/
def load_vocab (file : Str) : List (Str × Nat) :=
  dictOf (canonFrom 0 (readlines file))

/-- The reverse dictionary built at construction (tokenization.py, line
126): OrderedDict((ids, tok) for tok, ids in vocab.items()). -/
def mkIdsToTokens (v : List (Str × Nat)) : List (Nat × Str) :=
  dictOf (v.map (fun p => (p.2, p.1)))

/-- Python text.split() with no argument: split on runs of whitespace,
producing no empty pieces.  The accumulator holds the reversed current
word. -/
def pySplitAux (acc : Str) : Str → List Str
  | [] => if acc.isEmpty then [] else [acc.reverse]
  | c :: cs =>
    if isWs c then
      if acc.isEmpty then pySplitAux [] cs else acc.reverse :: pySplitAux [] cs
    else pySplitAux (c :: acc) cs

/-- Python text.split() with no argument. -/
def pySplit (s : Str) : List Str := pySplitAux [] s

/-- Python text.strip(): drop whitespace from both ends. -/
def pyStrip (s : Str) : Str :=
  ((s.dropWhile isWs).reverse.dropWhile isWs).reverse

/-- Python " ".join(pieces). -/
def joinSpace : List Str → Str
  | [] => []
  | [p] => p
  | p :: q :: ps => p ++ ' ' :: joinSpace (q :: ps)

/-- whitespace_tokenize (tokenization.py, lines 47 to 53): strip the text,
return [] if the result is empty, else split on whitespace. -/
def whitespace_tokenize (text : Str) : List Str :=
  let t := pyStrip text
  if t.isEmpty then [] else pySplit t

/-- The character segmenter KoCharElectraTokenizer._tokenize
(tokenization.py, lines 135 to 136):
list of the characters of " ".join(text.split()), each as a one-character
token string. -/
def charTokenize (text : Str) : List Str :=
  (joinSpace (pySplit text)).map (fun c => [c])

/-- The error taxonomy of the spec.  The source raises ValueError in both
cases; the spec names the construction-time failure ConfigurationError and
the bad-argument failure InvalidArgumentError. -/
inductive TokErr where
  | configurationError : TokErr
  | invalidArgument : TokErr
deriving DecidableEq

/-- The state of a constructed KoCharElectraTokenizer: the loaded
vocabulary, the derived reverse map, and the five special token strings. -/
structure Tokenizer where
  vocab : List (Str × Nat)
  ids_to_tokens : List (Nat × Str)
  unk_token : Str
  sep_token : Str
  pad_token : Str
  cls_token : Str
  mask_token : Str
deriving DecidableEq

/-- The tokenizer state KoCharElectraTokenizer.__init__ builds from an
existing vocabulary file (tokenization.py, lines 125 to 126). -/
def tokenizerOf (file : Str) (unk sep pad cls mask : Str) : Tokenizer :=
  { vocab := load_vocab file
    ids_to_tokens := mkIdsToTokens (load_vocab file)
    unk_token := unk
    sep_token := sep
    pad_token := pad
    cls_token := cls
    mask_token := mask }

/-- KoCharElectraTokenizer.__init__ (tokenization.py, lines 97 to 126).
The only failure check it performs is os.path.isfile(vocab_file), modelled
by the fileExists flag; a missing file raises ValueError (the spec's
ConfigurationError).  Otherwise the vocabulary is loaded and the reverse
map derived; nothing checks that the special tokens resolve to ids. -/
def KoCharElectraTokenizer.init (fileExists : Bool) (file : Str)
    (unk sep pad cls mask : Str) : Except TokErr Tokenizer :=
  if fileExists then .ok (tokenizerOf file unk sep pad cls mask)
  else .error .configurationError

/-- KoCharElectraTokenizer._convert_token_to_id (tokenization.py, lines
138 to 140): self.vocab.get(token, self.vocab.get(self.unk_token)).
The result is None when both the token and the unknown token are absent. -/
def Tokenizer.convert_token_to_id (t : Tokenizer) (tok : Str) : PyId :=
  match dget tok t.vocab with
  | some i => some i
  | none => dget t.unk_token t.vocab

/-- KoCharElectraTokenizer._convert_id_to_token (tokenization.py, lines
142 to 144): self.ids_to_tokens.get(index, self.unk_token).  A None index
is not a key of the int-keyed dict, so it also yields the unknown token. -/
def Tokenizer.convert_id_to_token (t : Tokenizer) (index : PyId) : Str :=
  match index with
  | some i => (dget i t.ids_to_tokens).getD t.unk_token
  | none => t.unk_token

/-- Mapping a list of tokens to ids, element by element. -/
def Tokenizer.convert_tokens_to_ids (t : Tokenizer) (toks : List Str) :
    List PyId :=
  toks.map t.convert_token_to_id

/-- Mapping a list of ids to tokens, element by element. -/
def Tokenizer.convert_ids_to_tokens (t : Tokenizer) (ids : List PyId) :
    List Str :=
  ids.map t.convert_id_to_token

/-- KoCharElectraTokenizer.convert_tokens_to_string (tokenization.py,
lines 146 to 148): "".join(tokens).strip(). -/
def Tokenizer.convert_tokens_to_string (t : Tokenizer) (toks : List Str) :
    Str :=
  pyStrip toks.flatten

/-- The classifier token id self.cls_token_id: the vocabulary id of the
classifier token string (None if unresolvable). -/
def Tokenizer.cls_token_id (t : Tokenizer) : PyId :=
  t.convert_token_to_id t.cls_token

/-- The separator token id self.sep_token_id. -/
def Tokenizer.sep_token_id (t : Tokenizer) : PyId :=
  t.convert_token_to_id t.sep_token

/-- KoCharElectraTokenizer.build_inputs_with_special_tokens
(tokenization.py, lines 150 to 171). -/
def Tokenizer.build_inputs_with_special_tokens (t : Tokenizer)
    (ids0 : List PyId) (ids1 : Option (List PyId)) : List PyId :=
  match ids1 with
  | none => [t.cls_token_id] ++ ids0 ++ [t.sep_token_id]
  | some ids1 =>
    [t.cls_token_id] ++ ids0 ++ [t.sep_token_id] ++ ids1 ++ [t.sep_token_id]

/-- KoCharElectraTokenizer.get_special_tokens_mask (tokenization.py, lines
173 to 200).  With already_has_special_tokens it refuses a second sequence
(ValueError, the spec's InvalidArgumentError) and otherwise marks the
positions whose id is the separator or classifier id; without the flag it
builds the layout of build_inputs_with_special_tokens analytically from
the lengths. -/
def Tokenizer.get_special_tokens_mask (t : Tokenizer) (ids0 : List PyId)
    (ids1 : Option (List PyId)) (already_has_special_tokens : Bool) :
    Except TokErr (List Nat) :=
  if already_has_special_tokens then
    match ids1 with
    | some _ => .error .invalidArgument
    | none =>
      .ok (ids0.map (fun x =>
        if x = t.sep_token_id ∨ x = t.cls_token_id then 1 else 0))
  else
    match ids1 with
    | none => .ok ([1] ++ List.replicate ids0.length 0 ++ [1])
    | some ids1 =>
      .ok ([1] ++ List.replicate ids0.length 0 ++ [1]
        ++ List.replicate ids1.length 0 ++ [1])

/-- KoCharElectraTokenizer.create_token_type_ids_from_sequences
(tokenization.py, lines 202 to 225). -/
def Tokenizer.create_token_type_ids_from_sequences (t : Tokenizer)
    (ids0 : List PyId) (ids1 : Option (List PyId)) : List Nat :=
  let sep := [t.sep_token_id]
  let cls := [t.cls_token_id]
  match ids1 with
  | none => List.replicate (cls ++ ids0 ++ sep).length 0
  | some ids1 =>
    List.replicate (cls ++ ids0 ++ sep).length 0
      ++ List.replicate (ids1 ++ sep).length 1

/-- The sorted(self.vocab.items(), key=value) iteration order of
save_vocabulary.  The vocabulary ids are distinct in every use proved
below, so any sort by id models the stable Python sorted. -/
def sortByVal (v : List (Str × Nat)) : List (Str × Nat) :=
  List.insertionSort (fun p q => p.2 ≤ q.2) v

/-- The writer loop of save_vocabulary (tokenization.py, lines 236 to
250): walk the id-sorted items keeping a running expected index; emit a
diagnostic when the stored index differs from the expected one; write
token + newline either way.  Returns the written characters and whether
any diagnostic was emitted. -/
def saveLoop : Nat → List (Str × Nat) → Str × Bool
  | _, [] => ([], false)
  | idx, p :: ps =>
    let rest := saveLoop (p.2 + 1) ps
    (p.1 ++ '\n' :: rest.1, (decide (idx ≠ p.2)) || rest.2)

/-- The file name constant VOCAB_FILES_NAMES of tokenization.py. -/
def vocabFileName : Str := ['v', 'o', 'c', 'a', 'b', '.', 't', 'x', 't']

/-- KoCharElectraTokenizer.save_vocabulary (tokenization.py, lines 227 to
251): choose the output file (join with vocab.txt when given a
directory), write the tokens in ascending id order one per line, and
return the path written together with the written bytes and whether a
non-fatal diagnostic was logged. -/
def Tokenizer.save_vocabulary (t : Tokenizer) (isDir : Bool) (path : Str) :
    Str × Str × Bool :=
  let vocab_file := if isDir then path ++ '/' :: vocabFileName else path
  let w := saveLoop 0 (sortByVal t.vocab)
  (vocab_file, w.1, w.2)

end KoElectra

namespace KoElectra

section DictLemmas

variable {α β : Type} [DecidableEq α]

lemma dget_dput_self (k : α) (v : β) (d : List (α × β)) :
    dget k (dput k v d) = some v := by
  induction d with
  | nil => simp [dput, dget]
  | cons q qs ih =>
    by_cases h : q.1 = k
    · simp [dput, h, dget]
    · simp [dput, h, dget, ih]

lemma dget_dput_ne (k k2 : α) (v : β) (d : List (α × β)) (h : k2 ≠ k) :
    dget k2 (dput k v d) = dget k2 d := by
  induction d with
  | nil => simp [dput, dget, Ne.symm h]
  | cons q qs ih =>
    by_cases hq : q.1 = k
    · subst hq
      simp [dput, dget, Ne.symm h]
    · simp [dput, dget, hq, ih]

lemma dget_foldl_dput (es : List (α × β)) (d0 : List (α × β)) (k : α) :
    dget k (es.foldl (fun d q => dput q.1 q.2 d) d0)
      = match lastEntryVal k es with
        | some v => some v
        | none => dget k d0 := by
  induction es generalizing d0 with
  | nil => simp [lastEntryVal]
  | cons q qs ih =>
    simp only [List.foldl_cons]
    rw [ih]
    cases hrest : lastEntryVal k qs with
    | some v => simp [lastEntryVal, hrest]
    | none =>
      by_cases hq : q.1 = k
      · subst hq
        simp [lastEntryVal, hrest, dget_dput_self]
      · simp [lastEntryVal, hrest, hq,
          dget_dput_ne q.1 k q.2 d0 (Ne.symm hq)]

lemma dget_dictOf (es : List (α × β)) (k : α) :
    dget k (dictOf es) = lastEntryVal k es := by
  rw [dictOf, dget_foldl_dput]
  cases h : lastEntryVal k es with
  | none => simp [dget]
  | some v => simp

lemma mem_keys_dput (k a : α) (v : β) (d : List (α × β)) :
    a ∈ (dput k v d).map Prod.fst ↔ a = k ∨ a ∈ d.map Prod.fst := by
  induction d with
  | nil => simp [dput]
  | cons q qs ih =>
    by_cases hq : q.1 = k
    · simp [dput, hq]
    · simp [dput, hq, ih]
      tauto

lemma nodup_keys_dput (k : α) (v : β) (d : List (α × β))
    (h : (d.map Prod.fst).Nodup) : ((dput k v d).map Prod.fst).Nodup := by
  induction d with
  | nil => simp [dput]
  | cons q qs ih =>
    simp only [List.map_cons, List.nodup_cons] at h
    by_cases hq : q.1 = k
    · subst hq
      simpa [dput] using h
    · simp only [dput, hq, if_false, List.map_cons, List.nodup_cons]
      refine ⟨fun hmem => ?_, ih h.2⟩
      rcases (mem_keys_dput k q.1 v qs).mp hmem with h1 | h1
      · exact hq h1
      · exact h.1 h1

lemma nodup_keys_foldl (es : List (α × β)) (d0 : List (α × β))
    (h : (d0.map Prod.fst).Nodup) :
    (((es.foldl (fun d q => dput q.1 q.2 d) d0)).map Prod.fst).Nodup := by
  induction es generalizing d0 with
  | nil => simpa using h
  | cons q qs ih =>
    simp only [List.foldl_cons]
    exact ih _ (nodup_keys_dput _ _ _ h)

lemma nodup_keys_dictOf (es : List (α × β)) :
    ((dictOf es).map Prod.fst).Nodup := by
  apply nodup_keys_foldl
  simp

lemma dget_mem (k : α) (v : β) (d : List (α × β)) (h : dget k d = some v) :
    (k, v) ∈ d := by
  induction d with
  | nil => simp [dget] at h
  | cons q qs ih =>
    obtain ⟨q1, q2⟩ := q
    by_cases hq : q1 = k
    · subst hq
      simp [dget] at h
      subst h
      exact List.mem_cons_self _ _
    · simp [dget, hq] at h
      exact List.mem_cons_of_mem _ (ih h)

lemma mem_dget (k : α) (v : β) (d : List (α × β))
    (hnd : (d.map Prod.fst).Nodup) (h : (k, v) ∈ d) : dget k d = some v := by
  induction d with
  | nil => simp at h
  | cons q qs ih =>
    simp only [List.map_cons, List.nodup_cons] at hnd
    rcases List.mem_cons.mp h with h1 | h1
    · rw [← h1]
      simp [dget]
    · have hq : q.1 ≠ k := by
        intro hqk
        apply hnd.1
        rw [hqk]
        exact List.mem_map_of_mem Prod.fst h1
      simp only [dget, hq, if_false]
      exact ih hnd.2 h1

lemma lastEntryVal_none (k : α) (es : List (α × β))
    (h : ∀ p ∈ es, p.1 ≠ k) : lastEntryVal k es = none := by
  induction es with
  | nil => rfl
  | cons q qs ih =>
    have hq : q.1 ≠ k := h q (List.mem_cons_self q qs)
    simp [lastEntryVal, ih (fun p hp => h p (List.mem_cons_of_mem _ hp)), hq]

lemma lastEntryVal_some_mem (k : α) (v : β) (es : List (α × β))
    (h : lastEntryVal k es = some v) : (k, v) ∈ es := by
  induction es with
  | nil => simp [lastEntryVal] at h
  | cons q qs ih =>
    simp only [lastEntryVal] at h
    cases hrest : lastEntryVal k qs with
    | some w =>
      rw [hrest] at h
      injection h with h
      subst h
      exact List.mem_cons_of_mem _ (ih hrest)
    | none =>
      rw [hrest] at h
      obtain ⟨q1, q2⟩ := q
      by_cases hq : q1 = k
      · subst hq
        simp at h
        subst h
        exact List.mem_cons_self _ _
      · simp [hq] at h

lemma lastEntryVal_unique (k : α) (v : β) (es : List (α × β))
    (hmem : (k, v) ∈ es) (huniq : ∀ p ∈ es, p.1 = k → p.2 = v) :
    lastEntryVal k es = some v := by
  induction es with
  | nil => simp at hmem
  | cons q qs ih =>
    simp only [lastEntryVal]
    cases hrest : lastEntryVal k qs with
    | some w =>
      have hmemw := lastEntryVal_some_mem k w qs hrest
      have := huniq (k, w) (List.mem_cons_of_mem _ hmemw) rfl
      simp_all
    | none =>
      rcases List.mem_cons.mp hmem with h1 | h1
      · rw [← h1]
        simp
      · have := ih h1 (fun p hp hk => huniq p (List.mem_cons_of_mem _ hp) hk)
        rw [hrest] at this
        exact absurd this (by simp)

lemma length_dput (k : α) (v : β) (d : List (α × β)) :
    (dput k v d).length ≤ d.length + 1 := by
  induction d with
  | nil => simp [dput]
  | cons q qs ih =>
    by_cases hq : q.1 = k
    · simp [dput, hq]
    · simp only [dput, hq, if_false, List.length_cons]
      omega

lemma length_foldl_dput (es : List (α × β)) (d0 : List (α × β)) :
    ((es.foldl (fun d q => dput q.1 q.2 d) d0)).length
      ≤ d0.length + es.length := by
  induction es generalizing d0 with
  | nil => simp
  | cons q qs ih =>
    simp only [List.foldl_cons, List.length_cons]
    calc ((qs.foldl (fun d q => dput q.1 q.2 d) (dput q.1 q.2 d0))).length
        ≤ (dput q.1 q.2 d0).length + qs.length := ih _
      _ ≤ d0.length + (qs.length + 1) := by
          have := length_dput q.1 q.2 d0
          omega

lemma length_dictOf (es : List (α × β)) :
    (dictOf es).length ≤ es.length := by
  have := length_foldl_dput es ([] : List (α × β))
  simpa [dictOf] using this

end DictLemmas

end KoElectra

namespace KoElectra

lemma canonFrom_length (i : Nat) (ls : List Str) :
    (canonFrom i ls).length = ls.length := by
  induction ls generalizing i with
  | nil => rfl
  | cons l ls ih => simp [canonFrom, ih]

lemma map_snd_canonFrom (i : Nat) (ls : List Str) :
    (canonFrom i ls).map Prod.snd = List.range' i ls.length := by
  induction ls generalizing i with
  | nil => rfl
  | cons l ls ih => simp [canonFrom, ih, List.range'_succ]

lemma mem_canonFrom (k : Str) (v i : Nat) (ls : List Str) :
    (k, v) ∈ canonFrom i ls
      ↔ ∃ m, ((ls[m]?).map rstripNL) = some k ∧ v = i + m := by
  induction ls generalizing i with
  | nil => simp [canonFrom]
  | cons l ls ih =>
    constructor
    · intro h
      rcases List.mem_cons.mp h with h1 | h1
      · have hk : k = rstripNL l := congrArg Prod.fst h1
        have hv : v = i := congrArg Prod.snd h1
        subst hk
        subst hv
        exact ⟨0, by simp, by simp⟩
      · obtain ⟨m, hm, hv⟩ := (ih (i + 1)).mp h1
        exact ⟨m + 1, by simpa using hm, by omega⟩
    · rintro ⟨m, hm, hv⟩
      cases m with
      | zero =>
        simp only [List.getElem?_cons_zero, Option.map_some] at hm
        injection hm with hm
        subst hv
        simp [canonFrom, hm]
      | succ m =>
        have hm2 : ((ls[m]?).map rstripNL) = some k := by simpa using hm
        have := (ih (i + 1)).mpr ⟨m, hm2, by omega⟩
        exact List.mem_cons_of_mem _ this

lemma lastEntryVal_canonFrom_none (t : Str) (i : Nat) (ls : List Str)
    (h : ∀ m : Nat, ((ls[m]?).map rstripNL) ≠ some t) :
    lastEntryVal t (canonFrom i ls) = none := by
  apply lastEntryVal_none
  rintro ⟨pk, pv⟩ hp hpk
  obtain ⟨m, hm, _⟩ := (mem_canonFrom pk pv i ls).mp hp
  have hpk2 : pk = t := hpk
  rw [hpk2] at hm
  exact h m hm

lemma lastEntryVal_canonFrom_last (t : Str) (i m : Nat) (ls : List Str)
    (hm : ((ls[m]?).map rstripNL) = some t)
    (hlast : ∀ m2 : Nat, ((ls[m2]?).map rstripNL) = some t → m2 ≤ m) :
    lastEntryVal t (canonFrom i ls) = some (i + m) := by
  induction ls generalizing i m with
  | nil => simp at hm
  | cons l ls ih =>
    simp only [canonFrom, lastEntryVal]
    cases m with
    | zero =>
      have hnone : lastEntryVal t (canonFrom (i + 1) ls) = none := by
        apply lastEntryVal_canonFrom_none
        intro m2 hm2
        have := hlast (m2 + 1) (by simpa using hm2)
        omega
      simp only [List.getElem?_cons_zero, Option.map_some] at hm
      injection hm with hm
      simp [hnone, hm]
    | succ m =>
      have hm2 : ((ls[m]?).map rstripNL) = some t := by simpa using hm
      have hlast2 : ∀ m2 : Nat, ((ls[m2]?).map rstripNL) = some t → m2 ≤ m := by
        intro m2 h2
        have := hlast (m2 + 1) (by simpa using h2)
        omega
      have hih := ih (i + 1) m hm2 hlast2
      simp only [hih]
      congr 1
      omega

lemma dget_load_vocab (file : Str) (t : Str) :
    dget t (load_vocab file)
      = lastEntryVal t (canonFrom 0 (readlines file)) :=
  dget_dictOf _ _

lemma nodup_keys_load_vocab (file : Str) :
    ((load_vocab file).map Prod.fst).Nodup :=
  nodup_keys_dictOf _

lemma mem_load_vocab_line (file : Str) (k : Str) (v : Nat)
    (h : (k, v) ∈ load_vocab file) :
    (((readlines file)[v]?).map rstripNL) = some k := by
  have h1 := mem_dget k v _ (nodup_keys_load_vocab file) h
  rw [dget_load_vocab] at h1
  have h2 := lastEntryVal_some_mem _ _ _ h1
  obtain ⟨m, hm, hv⟩ := (mem_canonFrom k v 0 _).mp h2
  have hmv : m = v := by omega
  subst hmv
  exact hm

lemma dget_mkIdsToTokens_of_mem (file : Str) (k : Str) (v : Nat)
    (h : (k, v) ∈ load_vocab file) :
    dget v (mkIdsToTokens (load_vocab file)) = some k := by
  rw [mkIdsToTokens, dget_dictOf]
  apply lastEntryVal_unique
  · exact List.mem_map_of_mem (fun p => (p.2, p.1)) h
  · rintro p hp hpv
    obtain ⟨q, hq, hqp⟩ := List.mem_map.mp hp
    have hline := mem_load_vocab_line file q.1 q.2 (by simpa using hq)
    have hlinek := mem_load_vocab_line file k v h
    have hq2v : q.2 = v := by
      rw [← hqp] at hpv
      exact hpv
    rw [hq2v] at hline
    rw [hlinek] at hline
    injection hline with hline
    rw [← hqp]
    exact hline.symm

lemma dget_mkIdsToTokens_none (file : Str) (i : Nat)
    (h : ∀ p ∈ load_vocab file, p.2 ≠ i) :
    dget i (mkIdsToTokens (load_vocab file)) = none := by
  rw [mkIdsToTokens, dget_dictOf]
  apply lastEntryVal_none
  intro p hp
  obtain ⟨q, hq, hqp⟩ := List.mem_map.mp hp
  rw [← hqp]
  exact h q hq

end KoElectra

namespace KoElectra

lemma convert_roundtrip_present (file unk sep pad cls mask tok : Str)
    (v : Nat) (hv : dget tok (load_vocab file) = some v) :
    (tokenizerOf file unk sep pad cls mask).convert_id_to_token
        ((tokenizerOf file unk sep pad cls mask).convert_token_to_id tok)
      = tok := by
  have h1 : (tokenizerOf file unk sep pad cls mask).convert_token_to_id tok
      = some v := by
    simp [Tokenizer.convert_token_to_id, tokenizerOf, hv]
  rw [h1]
  have h2 := dget_mkIdsToTokens_of_mem file tok v (dget_mem _ _ _ hv)
  simp [Tokenizer.convert_id_to_token, tokenizerOf, h2]

lemma convert_roundtrip_absent (file unk sep pad cls mask tok : Str)
    (htok : dget tok (load_vocab file) = none) :
    (tokenizerOf file unk sep pad cls mask).convert_id_to_token
        ((tokenizerOf file unk sep pad cls mask).convert_token_to_id tok)
      = unk := by
  have h1 : (tokenizerOf file unk sep pad cls mask).convert_token_to_id tok
      = dget unk (load_vocab file) := by
    simp [Tokenizer.convert_token_to_id, tokenizerOf, htok]
  rw [h1]
  cases hu : dget unk (load_vocab file) with
  | none => simp [Tokenizer.convert_id_to_token, tokenizerOf]
  | some u =>
    have h2 := dget_mkIdsToTokens_of_mem file unk u (dget_mem _ _ _ hu)
    simp [Tokenizer.convert_id_to_token, tokenizerOf, h2]

/-- Claim C3: when the vocabulary loader reads a file in which the same
token string occurs on two different lines i < j (j being its last
occurrence), the id stored for the token in the forward map is the later
index j, the earlier index i is the id of no entry of the forward map, and
the derived reverse map sends j to the token and has no entry at i. -/
theorem load_vocab_duplicate_last_wins (file t1 : Str) (i j : Nat)
    (hij : i < j)
    (hi : (((readlines file)[i]?).map rstripNL) = some t1)
    (hj : (((readlines file)[j]?).map rstripNL) = some t1)
    (hlast : ∀ k : Nat,
      (((readlines file)[k]?).map rstripNL) = some t1 → k ≤ j) :
    dget t1 (load_vocab file) = some j
    ∧ (∀ p ∈ load_vocab file, p.2 ≠ i)
    ∧ dget j (mkIdsToTokens (load_vocab file)) = some t1
    ∧ dget i (mkIdsToTokens (load_vocab file)) = none := by
  have hget : dget t1 (load_vocab file) = some j := by
    rw [dget_load_vocab]
    have := lastEntryVal_canonFrom_last t1 0 j (readlines file) hj hlast
    simpa using this
  have hnoti : ∀ p ∈ load_vocab file, p.2 ≠ i := by
    rintro ⟨pk, pv⟩ hp hpvi
    have hline := mem_load_vocab_line file pk pv hp
    have hpv : pv = i := hpvi
    rw [hpv] at hline
    have hpk : pk = t1 := by
      have h2 := hline.symm.trans hi
      injection h2
    have hp2 : (t1, i) ∈ load_vocab file := by
      rw [← hpk, ← hpv]
      exact hp
    have := mem_dget t1 i _ (nodup_keys_load_vocab file) hp2
    rw [hget] at this
    injection this with this
    omega
  refine ⟨hget, hnoti, ?_, ?_⟩
  · exact dget_mkIdsToTokens_of_mem file t1 j (dget_mem _ _ _ hget)
  · exact dget_mkIdsToTokens_none file i hnoti

/-- Witness for C3 at the concrete file "a\nb\na\n": the duplicate token
"a" on lines 0 and 2 gets id 2, id 0 disappears, and the reverse map only
knows id 2. -/
theorem load_vocab_duplicate_last_wins_wit :
    (0 : Nat) < 2
    ∧ (((readlines ['a', '\n', 'b', '\n', 'a', '\n'])[0]?).map rstripNL)
        = some ['a']
    ∧ (((readlines ['a', '\n', 'b', '\n', 'a', '\n'])[2]?).map rstripNL)
        = some ['a']
    ∧ dget ['a'] (load_vocab ['a', '\n', 'b', '\n', 'a', '\n']) = some 2
    ∧ dget 2 (mkIdsToTokens (load_vocab ['a', '\n', 'b', '\n', 'a', '\n']))
        = some ['a']
    ∧ dget 0 (mkIdsToTokens (load_vocab ['a', '\n', 'b', '\n', 'a', '\n']))
        = none := by
  have hlast : ∀ k : Nat,
      (((readlines ['a', '\n', 'b', '\n', 'a', '\n'])[k]?).map rstripNL)
        = some ['a'] → k ≤ 2 := by
    intro k hk
    by_contra hgt
    push_neg at hgt
    have hlen : (readlines ['a', '\n', 'b', '\n', 'a', '\n']).length ≤ k := by
      have h3 : (readlines ['a', '\n', 'b', '\n', 'a', '\n']).length = 3 := by
        decide
      omega
    rw [List.getElem?_eq_none hlen] at hk
    simp at hk
  have h := load_vocab_duplicate_last_wins ['a', '\n', 'b', '\n', 'a', '\n']
    ['a'] 0 2 (by decide) (by decide) (by decide) hlast
  exact ⟨by decide, by decide, by decide, h.1, h.2.2.1, h.2.2.2⟩

/-- Claim C5: mapping tokens to ids and back (the composition of
_convert_token_to_id and _convert_id_to_token over a token list) returns
each token that is present in the loaded vocabulary unchanged and returns
the unknown-token string for each absent token; both directions are total
functions of their input (absent tokens degrade to the unknown id or to
None, unmapped ids degrade to the unknown-token string; nothing fails). -/
theorem codec_roundtrip_total (file unk sep pad cls mask : Str)
    (X : List Str) :
    (tokenizerOf file unk sep pad cls mask).convert_ids_to_tokens
        ((tokenizerOf file unk sep pad cls mask).convert_tokens_to_ids X)
      = X.map (fun tok =>
          if (dget tok (load_vocab file)).isSome then tok else unk) := by
  simp only [Tokenizer.convert_ids_to_tokens, Tokenizer.convert_tokens_to_ids,
    List.map_map]
  apply List.map_congr_left
  intro tok _
  simp only [Function.comp]
  cases hv : dget tok (load_vocab file) with
  | some v =>
    rw [convert_roundtrip_present file unk sep pad cls mask tok v hv]
    simp [hv]
  | none =>
    rw [convert_roundtrip_absent file unk sep pad cls mask tok hv]
    simp [hv]

end KoElectra

namespace KoElectra

/-- Counterexample for C1 as stated: the vocabulary file "a\n" exists but
does not contain the default unknown token [UNK]; construction nevertheless
succeeds and returns a tokenizer, because __init__ only checks that the
file exists and never checks that the special tokens resolve to ids. -/
theorem init_succeeds_without_unk_token :
    KoCharElectraTokenizer.init true ['a', '\n']
        ['[', 'U', 'N', 'K', ']'] ['[', 'S', 'E', 'P', ']']
        ['[', 'P', 'A', 'D', ']'] ['[', 'C', 'L', 'S', ']']
        ['[', 'M', 'A', 'S', 'K', ']']
      = .ok (tokenizerOf ['a', '\n']
        ['[', 'U', 'N', 'K', ']'] ['[', 'S', 'E', 'P', ']']
        ['[', 'P', 'A', 'D', ']'] ['[', 'C', 'L', 'S', ']']
        ['[', 'M', 'A', 'S', 'K', ']'])
    ∧ dget ['[', 'U', 'N', 'K', ']'] (load_vocab ['a', '\n']) = none := by
  exact ⟨rfl, by decide⟩

/-- Claim C1 (amended): construction fails fatally, with the configuration
error and producing no tokenizer state, exactly when the vocabulary file is
missing or unreadable; when the file exists, construction always returns a
fully initialized tokenizer, whether or not the special tokens resolve to
ids in the loaded vocabulary. -/
theorem init_fails_iff_file_missing (fe : Bool)
    (file unk sep pad cls mask : Str) :
    (KoCharElectraTokenizer.init fe file unk sep pad cls mask
        = .error .configurationError ↔ fe = false)
    ∧ (fe = true →
        KoCharElectraTokenizer.init fe file unk sep pad cls mask
          = .ok (tokenizerOf file unk sep pad cls mask)) := by
  cases fe <;> simp [KoCharElectraTokenizer.init]

/-- Witness for the amended C1 at a concrete existing file "b\n". -/
theorem init_fails_iff_file_missing_wit :
    (true = true)
    ∧ KoCharElectraTokenizer.init true ['b', '\n'] [] [] [] [] []
        = .ok (tokenizerOf ['b', '\n'] [] [] [] [] []) :=
  ⟨rfl, (init_fails_iff_file_missing true ['b', '\n'] [] [] [] [] []).2 rfl⟩

/-- Claim C7: with already_has_special_tokens set, get_special_tokens_mask
fails with the invalid-argument error exactly when a second sequence is
supplied; when the second sequence is absent it returns, over the raw
first sequence, 1 at exactly the positions whose id equals the separator
or classifier id and 0 elsewhere.  The operation is a pure function of its
arguments: in the error case no tokenizer state exists to be changed. -/
theorem special_tokens_mask_already_has_special (t : Tokenizer)
    (A B : List PyId) :
    t.get_special_tokens_mask A (some B) true = .error .invalidArgument
    ∧ (∀ oB : Option (List PyId),
        (∃ e, t.get_special_tokens_mask A oB true = .error e) ↔ oB.isSome)
    ∧ t.get_special_tokens_mask A none true
        = .ok (A.map (fun x =>
            if x = t.sep_token_id ∨ x = t.cls_token_id then 1 else 0))
    ∧ (∀ k : Nat,
        (A.map (fun x =>
          if x = t.sep_token_id ∨ x = t.cls_token_id then 1 else 0))[k]?
        = (A[k]?).map (fun x =>
            if x = t.sep_token_id ∨ x = t.cls_token_id then 1 else 0)) := by
  refine ⟨rfl, ?_, rfl, ?_⟩
  · intro oB
    cases oB with
    | none => simp [Tokenizer.get_special_tokens_mask]
    | some Bs => simp [Tokenizer.get_special_tokens_mask]
  · intro k
    simp [List.getElem?_map]

/-- Claim C8: build_inputs_with_special_tokens produces the classifier id,
then the first sequence, then the separator id (length A.length + 2);
for a pair it produces classifier, A, separator, B, separator (length
A.length + B.length + 3). -/
theorem build_inputs_structure (t : Tokenizer) (A B : List PyId) :
    t.build_inputs_with_special_tokens A none
        = [t.cls_token_id] ++ A ++ [t.sep_token_id]
    ∧ (t.build_inputs_with_special_tokens A none).length = A.length + 2
    ∧ t.build_inputs_with_special_tokens A (some B)
        = [t.cls_token_id] ++ A ++ [t.sep_token_id] ++ B ++ [t.sep_token_id]
    ∧ (t.build_inputs_with_special_tokens A (some B)).length
        = A.length + B.length + 3 := by
  refine ⟨rfl, ?_, rfl, ?_⟩ <;>
    · simp [Tokenizer.build_inputs_with_special_tokens]
      try omega

/-- Claim C10: create_token_type_ids_from_sequences returns A.length + 2
zeros for a single sequence, and that followed by B.length + 1 ones for a
pair; the output depends only on the lengths of the inputs (replacing the
sequences by any same-length sequences leaves it unchanged). -/
theorem token_type_ids_spec (t : Tokenizer) (A B : List PyId) (x : PyId) :
    t.create_token_type_ids_from_sequences A none
        = List.replicate (A.length + 2) 0
    ∧ t.create_token_type_ids_from_sequences A (some B)
        = List.replicate (A.length + 2) 0 ++ List.replicate (B.length + 1) 1
    ∧ t.create_token_type_ids_from_sequences A none
        = t.create_token_type_ids_from_sequences
            (List.replicate A.length x) none
    ∧ t.create_token_type_ids_from_sequences A (some B)
        = t.create_token_type_ids_from_sequences
            (List.replicate A.length x) (some (List.replicate B.length x)) := by
  refine ⟨?_, ?_, ?_, ?_⟩ <;>
    simp [Tokenizer.create_token_type_ids_from_sequences]

end KoElectra

namespace KoElectra

lemma getElem_replicate_append {α : Type} (n : Nat) (x : α) (l : List α)
    (k : Nat) :
    ((List.replicate n x ++ l))[k]? = if k < n then some x else l[k - n]? := by
  induction n generalizing k with
  | zero => simp
  | succ n ih =>
    cases k with
    | zero => simp [List.replicate_succ]
    | succ k =>
      simp only [List.replicate_succ, List.cons_append,
        List.getElem?_cons_succ, ih]
      by_cases hk : k < n
      · simp [hk, Nat.succ_lt_succ hk]
      · have h2 : ¬(k + 1 < n + 1) := by omega
        have h3 : k + 1 - (n + 1) = k - n := by omega
        simp [hk, h2, h3]

lemma mask_single_getElem (n k : Nat) :
    (([1] ++ List.replicate n (0 : Nat) ++ [1]))[k]?
      = if k = 0 ∨ k = n + 1 then some 1
        else if k < n + 2 then some 0 else none := by
  have hL : ([1] ++ List.replicate n (0 : Nat) ++ [1])
      = 1 :: (List.replicate n (0 : Nat) ++ [1]) := by
    simp
  rw [hL]
  cases k with
  | zero => simp
  | succ k =>
    rw [List.getElem?_cons_succ, getElem_replicate_append]
    rcases Nat.lt_trichotomy k n with hk | hk | hk
    · rw [if_pos hk,
        if_neg (by omega : ¬(k + 1 = 0 ∨ k + 1 = n + 1)),
        if_pos (by omega : k + 1 < n + 2)]
    · rw [if_neg (by omega : ¬k < n), (by omega : k - n = 0),
        if_pos (Or.inr (by omega : k + 1 = n + 1))]
      simp
    · obtain ⟨j, hj⟩ : ∃ j, k - n = j + 1 := ⟨k - n - 1, by omega⟩
      rw [if_neg (by omega : ¬k < n), hj,
        if_neg (by omega : ¬(k + 1 = 0 ∨ k + 1 = n + 1)),
        if_neg (by omega : ¬(k + 1 < n + 2))]
      simp

lemma mask_pair_getElem (a b k : Nat) :
    (([1] ++ List.replicate a (0 : Nat) ++ [1]
        ++ List.replicate b (0 : Nat) ++ [1]))[k]?
      = if k = 0 ∨ k = a + 1 ∨ k = a + b + 2 then some 1
        else if k < a + b + 3 then some 0 else none := by
  have hL : ([1] ++ List.replicate a (0 : Nat) ++ [1]
        ++ List.replicate b (0 : Nat) ++ [1])
      = 1 :: (List.replicate a (0 : Nat)
          ++ (1 :: (List.replicate b (0 : Nat) ++ [1]))) := by
    simp
  rw [hL]
  cases k with
  | zero => simp
  | succ k =>
    rw [List.getElem?_cons_succ, getElem_replicate_append]
    rcases Nat.lt_trichotomy k a with hx | hx | hx
    · rw [if_pos hx,
        if_neg (by omega : ¬(k + 1 = 0 ∨ k + 1 = a + 1 ∨ k + 1 = a + b + 2)),
        if_pos (by omega : k + 1 < a + b + 3)]
    · rw [if_neg (by omega : ¬k < a), (by omega : k - a = 0),
        if_pos (Or.inr (Or.inl (by omega : k + 1 = a + 1)))]
      simp
    · obtain ⟨j, hj⟩ : ∃ j, k - a = j + 1 := ⟨k - a - 1, by omega⟩
      rw [if_neg (by omega : ¬k < a), hj,
        List.getElem?_cons_succ, getElem_replicate_append]
      rcases Nat.lt_trichotomy j b with hy | hy | hy
      · rw [if_pos hy,
          if_neg (by omega :
            ¬(k + 1 = 0 ∨ k + 1 = a + 1 ∨ k + 1 = a + b + 2)),
          if_pos (by omega : k + 1 < a + b + 3)]
      · rw [if_neg (by omega : ¬j < b), (by omega : j - b = 0),
          if_pos (Or.inr (Or.inr (by omega : k + 1 = a + b + 2)))]
        simp
      · obtain ⟨j2, hj2⟩ : ∃ j2, j - b = j2 + 1 := ⟨j - b - 1, by omega⟩
        rw [if_neg (by omega : ¬j < b), hj2,
          if_neg (by omega :
            ¬(k + 1 = 0 ∨ k + 1 = a + 1 ∨ k + 1 = a + b + 2)),
          if_neg (by omega : ¬(k + 1 < a + b + 3))]
        simp

/-- Claim C6: with already_has_special_tokens false,
get_special_tokens_mask never fails and returns a 0/1 list whose length
equals that of build_inputs_with_special_tokens on the same arguments,
with 1 exactly at position 0 (classifier) and at each separator position
(A.length + 1; additionally the final position A.length + B.length + 2 for
a pair) and 0 at every other position; the result is computed from the
lengths alone, without invoking build_inputs and without inspecting the id
values (replacing A and B by any same-length lists gives the same mask). -/
theorem special_tokens_mask_layout (t : Tokenizer) (A B : List PyId)
    (x : PyId) :
    (∃ mA, t.get_special_tokens_mask A none false = .ok mA
      ∧ mA.length = (t.build_inputs_with_special_tokens A none).length
      ∧ ∀ k : Nat, mA[k]?
          = if k = 0 ∨ k = A.length + 1 then some 1
            else if k < A.length + 2 then some 0 else none)
    ∧ (∃ mAB, t.get_special_tokens_mask A (some B) false = .ok mAB
      ∧ mAB.length = (t.build_inputs_with_special_tokens A (some B)).length
      ∧ ∀ k : Nat, mAB[k]?
          = if k = 0 ∨ k = A.length + 1 ∨ k = A.length + B.length + 2
            then some 1
            else if k < A.length + B.length + 3 then some 0 else none)
    ∧ t.get_special_tokens_mask A none false
        = t.get_special_tokens_mask (List.replicate A.length x) none false
    ∧ t.get_special_tokens_mask A (some B) false
        = t.get_special_tokens_mask (List.replicate A.length x)
            (some (List.replicate B.length x)) false := by
  refine ⟨⟨[1] ++ List.replicate A.length 0 ++ [1], rfl, ?_, ?_⟩,
    ⟨[1] ++ List.replicate A.length 0 ++ [1]
      ++ List.replicate B.length 0 ++ [1], rfl, ?_, ?_⟩, ?_, ?_⟩
  · simp [Tokenizer.build_inputs_with_special_tokens]
  · intro k
    exact mask_single_getElem A.length k
  · simp [Tokenizer.build_inputs_with_special_tokens]
  · intro k
    exact mask_pair_getElem A.length B.length k
  · simp [Tokenizer.get_special_tokens_mask]
  · simp [Tokenizer.get_special_tokens_mask]

end KoElectra

namespace KoElectra

lemma pySplitAux_all_ws (s : Str) (h : ∀ c ∈ s, isWs c = true) :
    pySplitAux [] s = [] := by
  induction s with
  | nil => rfl
  | cons c cs ih =>
    have hc : isWs c = true := h c (List.mem_cons_self c cs)
    simp [pySplitAux, hc,
      ih (fun c2 hc2 => h c2 (List.mem_cons_of_mem _ hc2))]

lemma pySplitAux_no_ws (s : Str) (acc : Str)
    (h : ∀ c ∈ s, isWs c = false) :
    pySplitAux acc s
      = if (acc.reverse ++ s).isEmpty then [] else [acc.reverse ++ s] := by
  induction s generalizing acc with
  | nil => simp [pySplitAux]
  | cons c cs ih =>
    have hc : isWs c = false := h c (List.mem_cons_self c cs)
    rw [pySplitAux]
    rw [hc]
    simp only [Bool.false_eq_true, if_false]
    rw [ih (c :: acc) (fun c2 hc2 => h c2 (List.mem_cons_of_mem _ hc2))]
    simp [List.reverse_cons, List.append_assoc]

lemma pySplit_no_ws (s : Str) (hne : s ≠ [])
    (h : ∀ c ∈ s, isWs c = false) : pySplit s = [s] := by
  rw [pySplit, pySplitAux_no_ws s [] h]
  simp [hne]

lemma pySplitAux_parts (s : Str) (acc : Str)
    (hacc : ∀ c ∈ acc, isWs c = false) :
    ∀ p ∈ pySplitAux acc s, p ≠ [] ∧ ∀ c ∈ p, isWs c = false := by
  induction s generalizing acc with
  | nil =>
    intro p hp
    by_cases he : acc.isEmpty
    · simp [pySplitAux, he] at hp
    · simp only [pySplitAux, he, Bool.false_eq_true, if_false,
        List.mem_singleton] at hp
      subst hp
      constructor
      · simp only [ne_eq, List.reverse_eq_nil_iff]
        exact List.isEmpty_eq_false.mp (by simpa using he)
      · intro c hc
        exact hacc c (List.mem_reverse.mp hc)
  | cons c cs ih =>
    intro p hp
    by_cases hc : isWs c
    · by_cases he : acc.isEmpty
      · rw [pySplitAux] at hp
        simp only [hc, if_true, he] at hp
        exact ih [] (by simp) p hp
      · rw [pySplitAux] at hp
        simp only [hc, if_true, he, Bool.false_eq_true, if_false,
          List.mem_cons] at hp
        rcases hp with hp | hp
        · subst hp
          constructor
          · simp only [ne_eq, List.reverse_eq_nil_iff]
            exact List.isEmpty_eq_false.mp (by simpa using he)
          · intro c2 hc2
            exact hacc c2 (List.mem_reverse.mp hc2)
        · exact ih [] (by simp) p hp
    · rw [pySplitAux] at hp
      simp only [hc, Bool.false_eq_true, if_false] at hp
      refine ih (c :: acc) ?_ p hp
      intro c2 hc2
      rcases List.mem_cons.mp hc2 with h2 | h2
      · rw [h2]
        simpa using hc
      · exact hacc c2 h2

lemma pySplit_parts (s : Str) :
    ∀ p ∈ pySplit s, p ≠ [] ∧ ∀ c ∈ p, isWs c = false :=
  pySplitAux_parts s [] (by simp)

lemma flatten_pySplitAux (s : Str) (acc : Str) :
    (pySplitAux acc s).flatten
      = acc.reverse ++ s.filter (fun c => !isWs c) := by
  induction s generalizing acc with
  | nil =>
    by_cases he : acc.isEmpty
    · have : acc = [] := List.isEmpty_iff.mp he
      simp [pySplitAux, he, this]
    · simp [pySplitAux, he]
  | cons c cs ih =>
    by_cases hc : isWs c
    · by_cases he : acc.isEmpty
      · have hacc : acc = [] := List.isEmpty_iff.mp he
        rw [pySplitAux]
        simp [hc, he, ih [], hacc, List.filter_cons]
      · rw [pySplitAux]
        simp [hc, he, ih [], List.filter_cons]
    · rw [pySplitAux]
      simp [hc, ih (c :: acc), List.filter_cons, List.append_assoc]

lemma flatten_pySplit (s : Str) :
    (pySplit s).flatten = s.filter (fun c => !isWs c) := by
  have := flatten_pySplitAux s []
  simpa [pySplit] using this

lemma joinSpace_cons (p : Str) (ps : List Str) :
    joinSpace (p :: ps)
      = p ++ (if ps.isEmpty then [] else ' ' :: joinSpace ps) := by
  cases ps <;> simp [joinSpace]

lemma filter_joinSpace (ps : List Str)
    (h : ∀ p ∈ ps, ∀ c ∈ p, isWs c = false) :
    (joinSpace ps).filter (fun c => !isWs c) = ps.flatten := by
  induction ps with
  | nil => rfl
  | cons p ps ih =>
    have hp1 : p.filter (fun c => !isWs c) = p :=
      List.filter_eq_self.mpr (fun a ha => by
        simp [h p (List.mem_cons_self p ps) a ha])
    cases ps with
    | nil => simp [joinSpace, hp1]
    | cons q qs =>
      have hsp : isWs ' ' = true := by decide
      simp only [joinSpace, List.filter_append, hp1, List.filter_cons, hsp,
        Bool.not_true, Bool.false_eq_true, if_false, List.flatten_cons]
      rw [ih (fun p2 hp2 => h p2 (List.mem_cons_of_mem _ hp2))]
      simp [List.flatten_cons]

/-- Claim C9: the character segmenter returns exactly the characters, as
one-character tokens, of the string obtained by splitting the text on
whitespace and rejoining with single spaces; removing whitespace from that
normalized string recovers exactly the non-whitespace characters of the
input in order; an empty or all-whitespace input yields the empty token
sequence (as does the whitespace_tokenize helper); and a nonempty text
with no whitespace at all yields one token per character with no space
tokens. -/
theorem char_segmenter_spec (text : Str) :
    charTokenize text = (joinSpace (pySplit text)).map (fun c => [c])
    ∧ (joinSpace (pySplit text)).filter (fun c => !isWs c)
        = text.filter (fun c => !isWs c)
    ∧ ((∀ c ∈ text, isWs c = true) →
        charTokenize text = [] ∧ whitespace_tokenize text = [])
    ∧ (text ≠ [] → (∀ c ∈ text, isWs c = false) →
        charTokenize text = text.map (fun c => [c])
          ∧ [' '] ∉ charTokenize text) := by
  refine ⟨rfl, ?_, ?_, ?_⟩
  · rw [filter_joinSpace _ (fun p hp => (pySplit_parts text p hp).2)]
    exact flatten_pySplit text
  · intro hws
    constructor
    · rw [charTokenize, pySplit, pySplitAux_all_ws text hws]
      rfl
    · rw [whitespace_tokenize]
      have hstrip : pyStrip text = [] := by
        rw [pyStrip]
        have hdw : text.dropWhile isWs = [] :=
          List.dropWhile_eq_nil_iff.mpr (fun x hx => hws x hx)
        simp [hdw]
      simp [hstrip]
  · intro hne hnws
    rw [charTokenize, pySplit_no_ws text hne hnws]
    constructor
    · rw [joinSpace]
    · rw [joinSpace]
      intro hmem
      obtain ⟨c, hc, hcs⟩ := List.mem_map.mp hmem
      have : c = ' ' := by
        have := congrArg List.head? hcs
        simpa using this
      rw [this] at hc
      have := hnws ' ' hc
      simp [isWs] at this

/-- Witness for C9: the all-whitespace text " " segments to nothing, and
the whitespace-free text "ab" segments to one token per character. -/
theorem char_segmenter_spec_wit :
    (charTokenize [' '] = [] ∧ whitespace_tokenize [' '] = [])
    ∧ charTokenize ['a', 'b'] = [['a'], ['b']]
    ∧ [' '] ∉ charTokenize ['a', 'b'] := by
  refine ⟨(char_segmenter_spec [' ']).2.2.1 ?_, ?_, ?_⟩
  · intro c hc
    rcases List.mem_singleton.mp hc with h
    rw [h]
    decide
  · exact ((char_segmenter_spec ['a', 'b']).2.2.2 (by simp)
      (by decide)).1.trans (by decide)
  · exact ((char_segmenter_spec ['a', 'b']).2.2.2 (by simp) (by decide)).2

end KoElectra

namespace KoElectra

lemma dropWhile_eq_self_of_head (l : Str)
    (h : ∀ c, l.head? = some c → isWs c = false) :
    l.dropWhile isWs = l := by
  cases l with
  | nil => rfl
  | cons c cs =>
    have hc := h c rfl
    simp [List.dropWhile_cons, hc]

lemma pyStrip_eq_self (l : Str)
    (h1 : ∀ c, l.head? = some c → isWs c = false)
    (h2 : ∀ c, l.getLast? = some c → isWs c = false) :
    pyStrip l = l := by
  have h3 : l.reverse.dropWhile isWs = l.reverse := by
    apply dropWhile_eq_self_of_head
    intro c hc
    rw [List.head?_reverse] at hc
    exact h2 c hc
  rw [pyStrip, dropWhile_eq_self_of_head l h1, h3, List.reverse_reverse]

lemma mem_of_getLast_opt {l : Str} {c : Char} (h : l.getLast? = some c) :
    c ∈ l := by
  rw [List.getLast?_eq_head?_reverse] at h
  have h2 : c ∈ l.reverse.head? := Option.mem_def.mpr h
  exact List.mem_reverse.mp (List.mem_of_mem_head? h2)

lemma getLast_opt_cons_of_ne (a : Char) (l : Str) (h : l ≠ []) :
    (a :: l).getLast? = l.getLast? := by
  cases l with
  | nil => exact absurd rfl h
  | cons b bs => exact List.getLast?_cons_cons

lemma joinSpace_head (ps : List Str) (hne : ∀ p ∈ ps, p ≠ [])
    (c : Char) (hc : (joinSpace ps).head? = some c) : ∃ p ∈ ps, c ∈ p := by
  cases ps with
  | nil => simp [joinSpace] at hc
  | cons p ps2 =>
    rw [joinSpace_cons, List.head?_append] at hc
    cases hph : p.head? with
    | none =>
      rw [List.head?_eq_none_iff] at hph
      exact absurd hph (hne p (List.mem_cons_self p ps2))
    | some d =>
      rw [hph, Option.or_some] at hc
      injection hc with hc
      subst hc
      exact ⟨p, List.mem_cons_self p ps2,
        List.mem_of_mem_head? (Option.mem_def.mpr hph)⟩

lemma joinSpace_getLast (ps : List Str) :
    ∀ c : Char, (∀ p ∈ ps, p ≠ []) →
      (joinSpace ps).getLast? = some c → ∃ p ∈ ps, c ∈ p := by
  induction ps with
  | nil =>
    intro c _ hc
    simp [joinSpace] at hc
  | cons p ps2 ih =>
    intro c hne hc
    cases ps2 with
    | nil =>
      simp only [joinSpace] at hc
      exact ⟨p, List.mem_cons_self p [], mem_of_getLast_opt hc⟩
    | cons q qs =>
      simp only [joinSpace] at hc
      rw [List.getLast?_append] at hc
      have hjoin_ne : joinSpace (q :: qs) ≠ [] := by
        rw [joinSpace_cons]
        intro hcontra
        exact hne q (List.mem_cons_of_mem _ (List.mem_cons_self q qs))
          (List.append_eq_nil.mp hcontra).1
      rw [getLast_opt_cons_of_ne ' ' _ hjoin_ne] at hc
      cases hj : (joinSpace (q :: qs)).getLast? with
      | none =>
        rw [List.getLast?_eq_none_iff] at hj
        exact absurd hj hjoin_ne
      | some d =>
        rw [hj, Option.or_some] at hc
        injection hc with hc
        subst hc
        obtain ⟨p2, hp2, hdp2⟩ := ih d
          (fun r hr => hne r (List.mem_cons_of_mem _ hr)) hj
        exact ⟨p2, List.mem_cons_of_mem _ hp2, hdp2⟩

lemma pyStrip_joinSpace_pySplit (s : Str) :
    pyStrip (joinSpace (pySplit s)) = joinSpace (pySplit s) := by
  apply pyStrip_eq_self
  · intro c hc
    obtain ⟨p, hp, hcp⟩ := joinSpace_head (pySplit s)
      (fun p hp => (pySplit_parts s p hp).1) c hc
    exact (pySplit_parts s p hp).2 c hcp
  · intro c hc
    obtain ⟨p, hp, hcp⟩ := joinSpace_getLast (pySplit s) c
      (fun p hp => (pySplit_parts s p hp).1) hc
    exact (pySplit_parts s p hp).2 c hcp

lemma flatten_map_singleton (l : Str) :
    (l.map (fun c => [c])).flatten = l := by
  induction l with
  | nil => rfl
  | cons c cs ih => simp [ih]

/-- Claim C2: decoding the encoding of any text T, that is, detokenizing
(convert_tokens_to_string) the tokens obtained from the ids of the
character segmentation of T, returns T with every internal whitespace run
collapsed to a single space and leading/trailing whitespace stripped
(" ".join(T.split())), provided every character of that normalized text,
the inserted single spaces included, is a token of the loaded vocabulary;
ignoring whitespace, the result agrees with T character for character. -/
theorem decode_encode_normalizes (file unk sep pad cls mask T : Str)
    (h : ∀ c ∈ joinSpace (pySplit T),
      (dget [c] (load_vocab file)).isSome = true) :
    (tokenizerOf file unk sep pad cls mask).convert_tokens_to_string
        ((tokenizerOf file unk sep pad cls mask).convert_ids_to_tokens
          ((tokenizerOf file unk sep pad cls mask).convert_tokens_to_ids
            (charTokenize T)))
      = joinSpace (pySplit T)
    ∧ (joinSpace (pySplit T)).filter (fun c => !isWs c)
        = T.filter (fun c => !isWs c) := by
  constructor
  · rw [charTokenize]
    simp only [Tokenizer.convert_tokens_to_ids,
      Tokenizer.convert_ids_to_tokens, Tokenizer.convert_tokens_to_string,
      List.map_map]
    have hmap : (joinSpace (pySplit T)).map
        ((tokenizerOf file unk sep pad cls mask).convert_id_to_token ∘
          (tokenizerOf file unk sep pad cls mask).convert_token_to_id ∘
            fun c => [c])
        = (joinSpace (pySplit T)).map (fun c => [c]) := by
      apply List.map_congr_left
      intro c hcmem
      obtain ⟨v, hv⟩ := Option.isSome_iff_exists.mp (h c hcmem)
      exact convert_roundtrip_present file unk sep pad cls mask [c] v hv
    rw [hmap, flatten_map_singleton]
    exact pyStrip_joinSpace_pySplit T
  · rw [filter_joinSpace _ (fun p hp => (pySplit_parts T p hp).2)]
    exact flatten_pySplit T

/-- Witness for C2 at the vocabulary file "a\nb\n \n" and the text
" a  b ": every character of the normalized text "a b" is in the
vocabulary and decoding the encoding returns exactly "a b". -/
theorem decode_encode_normalizes_wit :
    (∀ c ∈ joinSpace (pySplit [' ', 'a', ' ', ' ', 'b', ' ']),
      (dget [c] (load_vocab ['a', '\n', 'b', '\n', ' ', '\n'])).isSome
        = true)
    ∧ (tokenizerOf ['a', '\n', 'b', '\n', ' ', '\n'] [] [] [] [] []
        ).convert_tokens_to_string
        ((tokenizerOf ['a', '\n', 'b', '\n', ' ', '\n'] [] [] [] [] []
          ).convert_ids_to_tokens
          ((tokenizerOf ['a', '\n', 'b', '\n', ' ', '\n'] [] [] [] [] []
            ).convert_tokens_to_ids
            (charTokenize [' ', 'a', ' ', ' ', 'b', ' '])))
      = joinSpace (pySplit [' ', 'a', ' ', ' ', 'b', ' ']) := by
  refine ⟨by decide, ?_⟩
  exact (decode_encode_normalizes ['a', '\n', 'b', '\n', ' ', '\n']
    [] [] [] [] [] [' ', 'a', ' ', ' ', 'b', ' '] (by decide)).1

end KoElectra

namespace KoElectra

lemma readlines_ne_nil (cs : Str) (h : cs ≠ []) : readlines cs ≠ [] := by
  cases cs with
  | nil => exact absurd rfl h
  | cons c rest =>
    intro hcon
    by_cases hc : c = '\n'
    · simp [readlines, hc] at hcon
    · rw [readlines, if_neg hc] at hcon
      cases hr : readlines rest with
      | nil => simp [hr] at hcon
      | cons l ls => simp [hr] at hcon

lemma flatten_readlines (cs : Str) : (readlines cs).flatten = cs := by
  induction cs with
  | nil => rfl
  | cons c rest ih =>
    by_cases hc : c = '\n'
    · simp [readlines, hc, ih]
    · cases hr : readlines rest with
      | nil =>
        have hrest : rest = [] := by
          by_contra hne
          exact readlines_ne_nil rest hne hr
        simp [readlines, hc, hr, hrest]
      | cons l ls =>
        have ih2 : (l :: ls).flatten = rest := by
          rw [← hr]
          exact ih
        simp only [List.flatten_cons] at ih2
        simp [readlines, hc, hr, List.flatten_cons, ih2]

lemma readlines_lines_end_nl (cs : Str)
    (h : cs.getLast? = some '\n' ∨ cs = []) :
    ∀ l ∈ readlines cs, ∃ u, l = u ++ ['\n'] ∧ '\n' ∉ u := by
  induction cs with
  | nil =>
    intro l hl
    simp [readlines] at hl
  | cons c rest ih =>
    intro l hl
    rcases h with h | h
    · by_cases hc : c = '\n'
      · subst hc
        rw [readlines, if_pos rfl] at hl
        rcases List.mem_cons.mp hl with hl | hl
        · exact ⟨[], by simp [hl], by simp⟩
        · by_cases hrest : rest = []
          · rw [hrest] at hl
            simp [readlines] at hl
          · have hlast : rest.getLast? = some '\n' := by
              rw [← getLast_opt_cons_of_ne '\n' rest hrest]
              exact h
            exact ih (Or.inl hlast) l hl
      · have hrest : rest ≠ [] := by
          intro hr
          rw [hr] at h
          simp at h
          exact hc h
        have hlast : rest.getLast? = some '\n' := by
          rw [← getLast_opt_cons_of_ne c rest hrest]
          exact h
        rw [readlines, if_neg hc] at hl
        cases hr : readlines rest with
        | nil => exact absurd hr (readlines_ne_nil rest hrest)
        | cons l2 ls2 =>
          rw [hr] at hl
          rcases List.mem_cons.mp hl with hl | hl
          · obtain ⟨u, hu, hnu⟩ := ih (Or.inl hlast) l2
              (by rw [hr]; exact List.mem_cons_self l2 ls2)
            refine ⟨c :: u, ?_, ?_⟩
            · rw [hl, hu]
              rfl
            · intro hmem
              rcases List.mem_cons.mp hmem with h2 | h2
              · exact hc h2.symm
              · exact hnu h2
          · exact ih (Or.inl hlast) l
              (by rw [hr]; exact List.mem_cons_of_mem _ hl)
    · exact absurd h (by simp)

lemma dropWhile_nl_eq_self (u : Str) (h : '\n' ∉ u) :
    u.dropWhile (fun c => c = '\n') = u := by
  cases u with
  | nil => rfl
  | cons c cs =>
    have hc : ¬(c = '\n') := by
      intro hcc
      exact h (by rw [hcc]; exact List.mem_cons_self _ _)
    simp [List.dropWhile_cons, hc]

lemma rstripNL_append_nl (u : Str) (h : '\n' ∉ u) :
    rstripNL (u ++ ['\n']) = u := by
  rw [rstripNL]
  have hrev : (u ++ ['\n']).reverse = '\n' :: u.reverse := by
    simp
  rw [hrev]
  have hstep : ('\n' :: u.reverse).dropWhile (fun c => c = '\n')
      = u.reverse.dropWhile (fun c => c = '\n') := by
    simp [List.dropWhile_cons]
  rw [hstep, dropWhile_nl_eq_self u.reverse (fun hm => h (List.mem_reverse.mp hm)),
    List.reverse_reverse]

lemma flatten_rstrip_lines (cs : Str)
    (h : cs.getLast? = some '\n' ∨ cs = []) :
    ((readlines cs).map (fun l => rstripNL l ++ ['\n'])).flatten = cs := by
  have hmap : (readlines cs).map (fun l => rstripNL l ++ ['\n'])
      = (readlines cs).map id := by
    apply List.map_congr_left
    intro l hl
    obtain ⟨u, hu, hnu⟩ := readlines_lines_end_nl cs h l hl
    rw [hu, rstripNL_append_nl u hnu]
    rfl
  rw [hmap, List.map_id]
  exact flatten_readlines cs

lemma saveLoop_content (i : Nat) (ps : List (Str × Nat)) :
    (saveLoop i ps).1 = (ps.map (fun p => p.1 ++ ['\n'])).flatten := by
  induction ps generalizing i with
  | nil => rfl
  | cons p ps ih => simp [saveLoop, ih]

lemma saveLoop_canonFrom (ls : List Str) (i : Nat) :
    saveLoop i (canonFrom i ls)
      = (((ls.map (fun l => rstripNL l ++ ['\n']))).flatten, false) := by
  induction ls generalizing i with
  | nil => rfl
  | cons l ls ih => simp [canonFrom, saveLoop, ih (i + 1)]

lemma saveLoop_no_warn_iff (ps : List (Str × Nat)) :
    ∀ i : Nat, (saveLoop i ps).2 = false
      ↔ ps.map Prod.snd = List.range' i ps.length := by
  induction ps with
  | nil =>
    intro i
    simp [saveLoop]
  | cons p ps ih =>
    intro i
    simp only [saveLoop, Bool.or_eq_false_iff, decide_eq_false_iff_not,
      not_not, List.map_cons, List.length_cons, List.range'_succ]
    constructor
    · rintro ⟨h1, h2⟩
      subst h1
      rw [(ih (p.2 + 1)).mp h2]
    · intro h
      injection h with h1 h2
      refine ⟨h1.symm, ?_⟩
      rw [ih (p.2 + 1), h1]
      exact h2

end KoElectra

namespace KoElectra

instance : IsTotal (Str × Nat) (fun p q => p.2 ≤ q.2) :=
  ⟨fun a b => Nat.le_total a.2 b.2⟩

instance : IsTrans (Str × Nat) (fun p q => p.2 ≤ q.2) :=
  ⟨fun _ _ _ h1 h2 => Nat.le_trans h1 h2⟩

instance : IsAntisymm (Str × Nat) (fun p q => p.2 < q.2) :=
  ⟨fun a _ h1 h2 => absurd (Nat.lt_trans h1 h2) (Nat.lt_irrefl a.2)⟩

lemma sortByVal_load_vocab_eq_canon (file : Str)
    (hContig : (sortByVal (load_vocab file)).map Prod.snd
        = List.range (load_vocab file).length) :
    sortByVal (load_vocab file) = canonFrom 0 (readlines file) := by
  have hperm : (sortByVal (load_vocab file)).Perm (load_vocab file) :=
    List.perm_insertionSort _ _
  have hsortedLe : (sortByVal (load_vocab file)).Sorted
      (fun p q : Str × Nat => p.2 ≤ q.2) :=
    List.sorted_insertionSort _ _
  have hndL : ((sortByVal (load_vocab file)).map Prod.snd).Nodup := by
    rw [hContig]
    exact List.nodup_range _
  have hmle : (load_vocab file).length ≤ (readlines file).length := by
    have h1 := length_dictOf (canonFrom 0 (readlines file))
    rw [canonFrom_length] at h1
    exact h1
  have hlen : (readlines file).length = (load_vocab file).length := by
    rcases Nat.eq_zero_or_pos (readlines file).length with h0 | hpos
    · omega
    · have hlt : (readlines file).length - 1 < (readlines file).length := by
        omega
      obtain ⟨tlast, hlast⟩ :
          ∃ x, (readlines file)[(readlines file).length - 1]? = some x := by
        rw [List.getElem?_eq_getElem hlt]
        exact ⟨_, rfl⟩
      have hm : (((readlines file)[(readlines file).length - 1]?).map
          rstripNL) = some (rstripNL tlast) := by
        rw [hlast]
        rfl
      have hlastocc : ∀ m2 : Nat,
          (((readlines file)[m2]?).map rstripNL) = some (rstripNL tlast)
            → m2 ≤ (readlines file).length - 1 := by
        intro m2 h2
        by_contra hgt
        push_neg at hgt
        rw [List.getElem?_eq_none (by omega)] at h2
        simp at h2
      have hget : dget (rstripNL tlast) (load_vocab file)
          = some ((readlines file).length - 1) := by
        rw [dget_load_vocab]
        have := lastEntryVal_canonFrom_last (rstripNL tlast) 0
          ((readlines file).length - 1) (readlines file) hm hlastocc
        simpa using this
      have hmem := dget_mem _ _ _ hget
      have hsnd : (readlines file).length - 1
          ∈ (load_vocab file).map Prod.snd :=
        List.mem_map_of_mem Prod.snd hmem
      have hsndL : (readlines file).length - 1
          ∈ (sortByVal (load_vocab file)).map Prod.snd :=
        ((hperm.map Prod.snd).mem_iff).mpr hsnd
      rw [hContig] at hsndL
      have := List.mem_range.mp hsndL
      omega
  have hsub : ∀ p ∈ load_vocab file, p ∈ canonFrom 0 (readlines file) := by
    rintro ⟨pk, pv⟩ hp
    have hdget := mem_dget pk pv _ (nodup_keys_load_vocab file) hp
    rw [dget_load_vocab] at hdget
    exact lastEntryVal_some_mem _ _ _ hdget
  have hsup : ∀ p ∈ canonFrom 0 (readlines file), p ∈ load_vocab file := by
    rintro ⟨pk, pv⟩ hp
    obtain ⟨m2, hm2, hv2⟩ := (mem_canonFrom pk pv 0 _).mp hp
    have hm2v : m2 = pv := by omega
    rw [hm2v] at hm2
    have hpvlt : pv < (readlines file).length := by
      cases hx : (readlines file)[pv]? with
      | none =>
        rw [hx] at hm2
        simp at hm2
      | some x =>
        obtain ⟨hbound, _⟩ := List.getElem?_eq_some_iff.mp hx
        exact hbound
    have hpvmem : pv ∈ (sortByVal (load_vocab file)).map Prod.snd := by
      rw [hContig]
      exact List.mem_range.mpr (by omega)
    obtain ⟨⟨q1, q2⟩, hq, hq2⟩ := List.mem_map.mp hpvmem
    have hqd : (q1, q2) ∈ load_vocab file := (hperm.mem_iff).mp hq
    have hline := mem_load_vocab_line file q1 q2 hqd
    have hq2v : q2 = pv := hq2
    rw [hq2v] at hline
    rw [hm2] at hline
    injection hline with hline
    have hq1 : q1 = pk := hline.symm
    rw [hq1, hq2v] at hqd
    exact hqd
  have hndd : (load_vocab file).Nodup := (nodup_keys_load_vocab file).of_map
  have hndc : (canonFrom 0 (readlines file)).Nodup := by
    apply List.Nodup.of_map Prod.snd
    rw [map_snd_canonFrom]
    exact List.nodup_range' _ _
  have hLnd : (sortByVal (load_vocab file)).Nodup := (hperm.nodup_iff).mpr hndd
  have hpermc : (sortByVal (load_vocab file)).Perm
      (canonFrom 0 (readlines file)) := by
    rw [List.perm_ext_iff_of_nodup hLnd hndc]
    intro a
    constructor
    · intro ha
      exact hsub a ((hperm.mem_iff).mp ha)
    · intro ha
      exact (hperm.mem_iff).mpr (hsup a ha)
  have hstrictL : (sortByVal (load_vocab file)).Sorted
      (fun p q : Str × Nat => p.2 < q.2) := by
    have hpw2 : (sortByVal (load_vocab file)).Pairwise
        (fun p q => p.2 ≠ q.2) := (List.pairwise_map).mp hndL
    exact List.Pairwise.imp (fun h => Nat.lt_of_le_of_ne h.1 h.2)
      (List.Pairwise.and hsortedLe hpw2)
  have hstrictC : (canonFrom 0 (readlines file)).Sorted
      (fun p q : Str × Nat => p.2 < q.2) := by
    have h2 : ((canonFrom 0 (readlines file)).map Prod.snd).Pairwise
        (fun a b => a < b) := by
      rw [map_snd_canonFrom]
      exact List.pairwise_lt_range' 0 (readlines file).length
    exact (List.pairwise_map).mp h2
  exact List.eq_of_perm_of_sorted hpermc hstrictL hstrictC

/-- Claim C4: saving the vocabulary immediately after loading it
reproduces the original vocabulary file byte for byte whenever the file is
in the newline-terminated vocabulary file format and the loaded ids are
contiguous from 0; when the ids are not contiguous from 0 the writer emits
a non-fatal diagnostic warning; in every case the written bytes are every
stored token, one per line, in ascending id order (the written item list
is an id-sorted permutation of the vocabulary), and the path written is
returned. -/
theorem save_after_load_roundtrip (file path unk sep pad cls mask : Str)
    (isDir : Bool) :
    ((file.getLast? = some '\n' ∨ file = []) →
      (sortByVal (load_vocab file)).map Prod.snd
          = List.range (load_vocab file).length →
      ((tokenizerOf file unk sep pad cls mask).save_vocabulary
          isDir path).2.1 = file)
    ∧ ((sortByVal (load_vocab file)).map Prod.snd
          ≠ List.range (load_vocab file).length →
        ((tokenizerOf file unk sep pad cls mask).save_vocabulary
            isDir path).2.2 = true)
    ∧ (sortByVal (load_vocab file)).Perm (load_vocab file)
    ∧ (sortByVal (load_vocab file)).Sorted
        (fun p q : Str × Nat => p.2 ≤ q.2)
    ∧ ((tokenizerOf file unk sep pad cls mask).save_vocabulary
        isDir path).2.1
      = ((sortByVal (load_vocab file)).map (fun p => p.1 ++ ['\n'])).flatten
    ∧ ((tokenizerOf file unk sep pad cls mask).save_vocabulary
        isDir path).1
      = (if isDir then path ++ '/' :: vocabFileName else path) := by
  refine ⟨?_, ?_, List.perm_insertionSort _ _,
    List.sorted_insertionSort _ _, ?_, ?_⟩
  · intro hNL hContig
    show (saveLoop 0 (sortByVal (load_vocab file))).1 = file
    rw [sortByVal_load_vocab_eq_canon file hContig]
    rw [saveLoop_canonFrom (readlines file) 0]
    exact flatten_rstrip_lines file hNL
  · intro hContig
    show (saveLoop 0 (sortByVal (load_vocab file))).2 = true
    by_contra hfalse
    have hf : (saveLoop 0 (sortByVal (load_vocab file))).2 = false := by
      cases h : (saveLoop 0 (sortByVal (load_vocab file))).2
      · rfl
      · exact absurd h hfalse
    have hrange := (saveLoop_no_warn_iff _ 0).mp hf
    rw [← List.range_eq_range'] at hrange
    have hlenL : (sortByVal (load_vocab file)).length
        = (load_vocab file).length :=
      (List.perm_insertionSort _ _).length_eq
    rw [hlenL] at hrange
    exact hContig hrange
  · exact saveLoop_content 0 _
  · rfl

/-- Witness for C4 at the newline-terminated file "a\nb\n": the loaded ids
are contiguous and saving writes back exactly the original bytes. -/
theorem save_after_load_roundtrip_wit :
    ((['a', '\n', 'b', '\n'] : Str).getLast? = some '\n'
      ∨ (['a', '\n', 'b', '\n'] : Str) = [])
    ∧ (sortByVal (load_vocab ['a', '\n', 'b', '\n'])).map Prod.snd
        = List.range (load_vocab ['a', '\n', 'b', '\n']).length
    ∧ ((tokenizerOf ['a', '\n', 'b', '\n'] [] [] [] [] []).save_vocabulary
        false []).2.1 = ['a', '\n', 'b', '\n'] := by
  refine ⟨Or.inl (by decide), by decide, ?_⟩
  exact (save_after_load_roundtrip ['a', '\n', 'b', '\n'] [] [] [] [] [] []
    false).1 (Or.inl (by decide)) (by decide)

end KoElectra
